import Mathlib

/-!
# Verification of the calendar assistant's event store and tool operations

Shallow embedding of the repository's core logic:

* `mock_calendar.py` — `get_next_event_id` (sequential `EVT…` id allocation).
* `tools.py` — the five tool functions `create_event`, `list_events`,
  `check_availability`, `update_event`, `delete_event`, all operating on the
  in-memory calendar dictionary.
* `groq_client.py` — `process_chat`, the bounded multi-step tool-calling loop.

Modelling conventions:

* The Python `dict` calendar is an insertion-ordered association list
  `List (String × Event)`; `dict` assignment, lookup, `pop` and iteration are
  embedded by `dictSet`, `dictGet?`, `dictPop` and direct list traversal,
  which match CPython's insertion-ordered dictionaries (assignment to an
  existing key keeps its position, a new key is appended at the end).
* Times of day are minutes since midnight.  `datetime.strptime(_, "%H:%M")`
  is embedded by `parseHM` (1–2 digit fields, hour ≤ 23, minute ≤ 59, exactly
  mirroring CPython's `_strptime` regular expressions), and
  `datetime.strptime(_, "%Y-%m-%d")` by `parseDate` (4-digit year ≥ 1,
  month 1–12, day valid for the month).  `strftime("%H:%M")` of a datetime is
  `fmtHM` of the datetime's total minutes modulo 1440 (minutes past midnight
  of whatever day the datetime fell on).
* `datetime` values that occur in comparisons (in `check_availability`) all
  lie on one fixed date, so they are embedded as `Int` minutes from that
  day's midnight; `timedelta` addition is `Int` addition.
* Each tool function returns a formatted string and never raises; we embed
  the success/failure distinction as `Except`, carrying the identifying data
  (the created id, the conflict list, the deleted record, …) instead of the
  rendered prose.  The `except Exception` handlers in the source become the
  `.error` branches.
* `int(eid.replace("EVT", ""))` is embedded by `parseIntPy ∘ removeEVT`:
  `removeEVT` deletes every (non-overlapping, left-to-right) occurrence of
  `"EVT"` exactly as `str.replace` does, and `parseIntPy` accepts an optional
  sign followed by digits as Python's `int` does.
* `list.sort(key=...)` is a stable ascending sort by the key; it is embedded
  by Mathlib's `insertionSort`, which is also stable and ascending — a stable
  sort's output is uniquely determined by the input and the (total) key
  preorder, so any stable sort embeds CPython's Timsort faithfully.
* All definitions are structurally recursive, so every concrete run of the
  embedded code can be checked by `decide`/`rfl`.
-/

namespace CalendarApp

/-- Digit-string evaluation, accumulator form: the value of `acc` followed by
the digit characters of `l`, most significant first (as Python's `int`). -/
def digitsValAux (acc : Nat) : List Char → Nat
  | [] => acc
  | c :: cs => digitsValAux (acc * 10 + (c.toNat - 48)) cs

/-- Decimal value of a list of digit characters. -/
def digitsVal (l : List Char) : Nat := digitsValAux 0 l

/-- Decimal digits of `n`, most significant first (as Python renders ints);
fuel-driven so that the recursion is structural (any `fuel > n` is enough,
and `natToDigits` supplies `n + 1`). -/
def natToDigitsAux : Nat → Nat → List Char
  | 0, _ => []
  | fuel + 1, n =>
    if n < 10 then [Nat.digitChar n]
    else natToDigitsAux fuel (n / 10) ++ [Nat.digitChar (n % 10)]

/-- Decimal digits of `n`, most significant first. -/
def natToDigits (n : Nat) : List Char := natToDigitsAux (n + 1) n

/-- `s.replace("EVT", "")` on the character list: drop every left-to-right
non-overlapping occurrence of `EVT`. -/
def removeEVT : List Char → List Char
  | [] => []
  | [c] => [c]
  | [c, d] => [c, d]
  | c :: d :: e :: rest =>
    if c = 'E' ∧ d = 'V' ∧ e = 'T' then removeEVT rest
    else c :: removeEVT (d :: e :: rest)

/-- Python `int(string)`: optional sign followed by one or more digits.
(Python also strips surrounding whitespace and allows `+`; neither occurs
for calendar keys, which are `EVT` + digits.) -/
def parseIntPy (l : List Char) : Option Int :=
  match l with
  | [] => none
  | c :: cs =>
    if c = '-' then
      if cs ≠ [] ∧ cs.all Char.isDigit then some (-(digitsVal cs : Int)) else none
    else if (c :: cs).all Char.isDigit then some ((digitsVal (c :: cs) : Int))
    else none

/-- The numeric suffix of an event id: `int(eid.replace("EVT", ""))`. -/
def evtSuffix (k : String) : Option Int := parseIntPy (removeEVT k.data)

/-- Maximum of a list of integers, as Python's `max` on a non-empty sequence
(the `[]` case is arbitrary; it is never reached by `get_next_event_id`). -/
def maxList : List Int → Int
  | [] => 0
  | x :: xs => xs.foldl max x

/-- Python `f"{n:03d}"`: decimal rendering zero-padded to width 3
(sign included in the width). -/
def intPad3 (n : Int) : List Char :=
  if n < 0 then
    '-' :: (List.replicate (2 - (natToDigits n.natAbs).length) '0' ++ natToDigits n.natAbs)
  else List.replicate (3 - (natToDigits n.toNat).length) '0' ++ natToDigits n.toNat

/-- The id string `f"EVT{n:03d}"`. -/
def evtIdStr (n : Int) : String := ⟨'E' :: 'V' :: 'T' :: intPad3 n⟩

/-- One calendar event record, as stored in the calendar dictionary. -/
structure Event where
  title : String
  date : String
  start_time : String
  end_time : String
  description : String
deriving DecidableEq

/-- The calendar: an insertion-ordered dictionary from event id to record. -/
abbrev EventStore := List (String × Event)

deriving instance DecidableEq for Except

/-- The suffixes `int(eid.replace("EVT", ""))` of all keys, in order; `none`
embeds the `ValueError` Python's `int` raises on a non-numeric suffix. -/
def allSuffixes : EventStore → Option (List Int)
  | [] => some []
  | kv :: rest =>
    match evtSuffix kv.1, allSuffixes rest with
    | some n, some ns => some (n :: ns)
    | _, _ => none

/-- `mock_calendar.get_next_event_id`: `EVT001` on an empty store, otherwise
`EVT` + (max numeric suffix + 1) zero-padded to 3 digits. -/
def get_next_event_id (calendar : EventStore) : Option String :=
  match calendar with
  | [] => some "EVT001"
  | _ =>
    match allSuffixes calendar with
    | none => none
    | some ns => some (evtIdStr (maxList ns + 1))

/-- Dictionary lookup (`calendar[k]` / `k in calendar`). -/
def dictGet? : EventStore → String → Option Event
  | [], _ => none
  | kv :: rest, k => if kv.1 == k then some kv.2 else dictGet? rest k

/-- Dictionary assignment `calendar[k] = v`: replace in place if the key is
present (keeping its position), else append at the end. -/
def dictSet : EventStore → String → Event → EventStore
  | [], k, v => [(k, v)]
  | kv :: rest, k, v => if kv.1 == k then (k, v) :: rest else kv :: dictSet rest k v

/-- Dictionary removal `calendar.pop(k)` (the key is known to be present). -/
def dictPop : EventStore → String → EventStore
  | [], _ => []
  | kv :: rest, k => if kv.1 == k then rest else kv :: dictPop rest k

/-- Python `event_id.upper()` (the ids involved are ASCII). -/
def strUpper (s : String) : String := ⟨s.data.map Char.toUpper⟩

/-- Split a character list at every occurrence of `sep` (Python-style
`str.split(sep)`: `n` separators yield `n + 1` fields, possibly empty). -/
def splitOnCharAux (sep : Char) : List Char → List Char → List (List Char)
  | [], acc => [acc.reverse]
  | c :: cs, acc =>
    if c = sep then acc.reverse :: splitOnCharAux sep cs []
    else splitOnCharAux sep cs (c :: acc)

/-- Split a character list on a separator character. -/
def splitOnChar (sep : Char) (l : List Char) : List (List Char) :=
  splitOnCharAux sep l []

/-- Gregorian leap year, as `datetime` uses. -/
def isLeap (y : Nat) : Bool := (y % 4 == 0 && y % 100 != 0) || y % 400 == 0

/-- Days in a month, as `datetime` validates. -/
def daysInMonth (y m : Nat) : Nat :=
  if m = 2 then (if isLeap y then 29 else 28)
  else if m = 4 ∨ m = 6 ∨ m = 9 ∨ m = 11 then 30
  else 31

/-- `datetime.strptime(s, "%H:%M")`, returning minutes since midnight.
CPython's `%H` matches `2[0-3]|[0-1]\d|\d` and `%M` matches `[0-5]\d|\d`:
one or two digit characters with value at most 23 resp. 59; the `:` must
match literally and the whole string must be consumed. -/
def parseHM (s : String) : Option Nat :=
  match splitOnChar ':' s.data with
  | [h, m] =>
    if h ≠ [] ∧ h.length ≤ 2 ∧ h.all Char.isDigit ∧
       m ≠ [] ∧ m.length ≤ 2 ∧ m.all Char.isDigit then
      if digitsVal h ≤ 23 ∧ digitsVal m ≤ 59 then
        some (digitsVal h * 60 + digitsVal m)
      else none
    else none
  | _ => none

/-- `datetime.strptime(s, "%Y-%m-%d")`: 4-digit year (≥ 1 for `datetime`),
1–2 digit month in 1–12, 1–2 digit day valid for the month. -/
def parseDate (s : String) : Option (Nat × Nat × Nat) :=
  match splitOnChar '-' s.data with
  | [y, m, d] =>
    if y.length = 4 ∧ y.all Char.isDigit ∧
       m ≠ [] ∧ m.length ≤ 2 ∧ m.all Char.isDigit ∧
       d ≠ [] ∧ d.length ≤ 2 ∧ d.all Char.isDigit then
      if 1 ≤ digitsVal y ∧ 1 ≤ digitsVal m ∧ digitsVal m ≤ 12 ∧
         1 ≤ digitsVal d ∧ digitsVal d ≤ daysInMonth (digitsVal y) (digitsVal m) then
        some (digitsVal y, digitsVal m, digitsVal d)
      else none
    else none
  | _ => none

/-- `strftime("%H:%M")` for a time of day given in minutes (`m < 1440`):
two zero-padded digit pairs around a colon. -/
def fmtHM (m : Nat) : String :=
  ⟨[Nat.digitChar (m / 60 / 10), Nat.digitChar (m / 60 % 10), ':',
    Nat.digitChar (m % 60 / 10), Nat.digitChar (m % 60 % 10)]⟩

/-- Observation function for stating theorems: reads a canonical `HH:MM`
string (the exact shape `strftime("%H:%M")` produces) back into minutes. -/
def timeVal? (s : String) : Option Nat :=
  match s.data with
  | [a, b, c, d, e] =>
    if a.isDigit ∧ b.isDigit ∧ c = ':' ∧ d.isDigit ∧ e.isDigit then
      if digitsVal [a, b] ≤ 23 ∧ digitsVal [d, e] ≤ 59 then
        some (digitsVal [a, b] * 60 + digitsVal [d, e])
      else none
    else none
  | _ => none

/-- The sort relation of `list_events`: ascending comparison of the
`start_time` key strings (`events.sort(key=lambda x: x[1]["start_time"])`).
Python compares strings lexicographically by code point; this is stated
directly on the code-point lists so that it is kernel-computable. -/
def startLE (a b : String × Event) : Prop :=
  ¬ List.Lex (· < ·) b.2.start_time.data a.2.start_time.data

instance : DecidableRel startLE := fun a b =>
  @instDecidableNot _ (List.Lex.decidableRel _ b.2.start_time.data a.2.start_time.data)

/-- `tools.create_event`: parse `f"{date} {time}"` with `"%Y-%m-%d %H:%M"`,
add `timedelta(minutes=duration_minutes)`, allocate the next id and store the
record.  On success returns the new id and the updated store; `.error` embeds
the `except` branch (unparseable input, or a non-`EVT`-numeric key met during
id allocation).  There is no overlap check and no sign check on the duration. -/
def create_event (calendar : EventStore) (title date time : String)
    (duration_minutes : Int) (description : String) :
    Except String (String × EventStore) :=
  match parseDate date, parseHM time with
  | some _, some s =>
    match get_next_event_id calendar with
    | none => .error "Error creating event"
    | some event_id =>
      let evt : Event :=
        { title := title, date := date,
          start_time := fmtHM s,
          end_time := fmtHM (((s : Int) + duration_minutes) % 1440).toNat,
          description := description }
      .ok (event_id, dictSet calendar event_id evt)
  | _, _ => .error "Error creating event"

/-- `tools.list_events`: filter the store (in iteration order) to the events
whose `date` field equals the argument, then `events.sort(key=start_time)` —
a stable ascending sort by the start-time string.  The formatting loop
re-parses each event's times and raises on a malformed one; `.error` embeds
that.  An empty day is a normal success. -/
def list_events (calendar : EventStore) (date : String) :
    Except String (List (String × Event)) :=
  let events := calendar.filter (fun kv => kv.2.date == date)
  if events.isEmpty then .ok []
  else
    let sorted := events.insertionSort startLE
    if sorted.all (fun kv => (parseHM kv.2.start_time).isSome && (parseHM kv.2.end_time).isSome)
    then .ok sorted
    else .error "Error listing events"

/-- The conflict scan inside `tools.check_availability`: walk the store in
iteration order; for every event on the requested date parse its times and
keep it when the half-open request interval `[rs, re)` meets the event's
`[es, ee)` (`req_start < evt_end and evt_start < req_end`).  A malformed
stored time on the requested date raises (`.error`). -/
def collectConflicts (rs re : Int) (date : String) :
    EventStore → Except String (List (String × Event))
  | [] => .ok []
  | kv :: rest =>
    if kv.2.date == date then
      match parseHM kv.2.start_time, parseHM kv.2.end_time with
      | some es, some ee =>
        match collectConflicts rs re date rest with
        | .ok cs => .ok (if rs < (ee : Int) ∧ (es : Int) < re then kv :: cs else cs)
        | .error e => .error e
      | _, _ => .error "Error checking availability"
    else collectConflicts rs re date rest

/-- `tools.check_availability`: parse the request, compute the half-open
interval `[start, start+duration)` and collect the conflicting events.
`.ok []` is "available", `.ok cs` with `cs ≠ []` is "busy" with conflict
list `cs` — both normal returns, never the error branch. -/
def check_availability (calendar : EventStore) (date time : String)
    (duration_minutes : Int) : Except String (List (String × Event)) :=
  match parseDate date, parseHM time with
  | some _, some rs =>
    collectConflicts (rs : Int) ((rs : Int) + duration_minutes) date calendar
  | _, _ => .error "Error checking availability"

/-- `tools.update_event`: upper-case the id, look it up, compute the old
duration `old_end − old_start` before any mutation, then apply the date and
time changes independently (an empty argument leaves the field untouched).
The date assignment `evt["date"] = new_date` mutates the stored record in
place *before* `new_time` is parsed, so when `new_time` is present but
malformed the error return leaves the date change in the store. -/
def update_event (calendar : EventStore) (event_id new_date new_time : String) :
    Except String String × EventStore :=
  let eid := strUpper event_id
  match dictGet? calendar eid with
  | none =>
    (.error ("Event ID '" ++ eid ++ "' not found. " ++
             "Please list your events first to find the correct ID."), calendar)
  | some evt =>
    match parseHM evt.start_time, parseHM evt.end_time with
    | some os, some oe =>
      let duration : Int := (oe : Int) - (os : Int)
      let evt₁ := if new_date ≠ "" then { evt with date := new_date } else evt
      let cal₁ := if new_date ≠ "" then dictSet calendar eid evt₁ else calendar
      if new_time ≠ "" then
        match parseHM new_time with
        | none => (.error "Error updating event", cal₁)
        | some ns =>
          let evt₂ := { evt₁ with
                        start_time := fmtHM ns,
                        end_time := fmtHM (((ns : Int) + duration) % 1440).toNat }
          (.ok ("Event '" ++ evt.title ++ "' (" ++ eid ++ ") updated!"),
           dictSet cal₁ eid evt₂)
      else (.ok ("Event '" ++ evt.title ++ "' (" ++ eid ++ ") updated!"), cal₁)
    | _, _ => (.error "Error updating event", calendar)

/-- `tools.delete_event`: upper-case the id; not-found returns the failure
message naming the id and leaves the store untouched.  For a present id,
`calendar.pop` removes the record *before* its times are re-parsed for the
confirmation message, so the removal persists even on the error branch. -/
def delete_event (calendar : EventStore) (event_id : String) :
    Except String Event × EventStore :=
  let eid := strUpper event_id
  match dictGet? calendar eid with
  | none =>
    (.error ("Event ID '" ++ eid ++ "' not found. " ++
             "Please list your events first to find the correct ID."), calendar)
  | some evt =>
    let cal' := dictPop calendar eid
    match parseHM evt.start_time, parseHM evt.end_time with
    | some _, some _ => (.ok evt, cal')
    | _, _ => (.error "Error deleting event", cal')

/-! ## The tool-calling conversation loop (`groq_client.process_chat`) -/

/-- One well-typed tool invocation request, as decoded from the model's JSON
arguments and dispatched through `TOOL_MAP`; `unknown` is a name absent from
the dispatch table. -/
inductive ToolReq where
  | create (title date time : String) (duration : Int) (description : String)
  | list (date : String)
  | avail (date time : String) (duration : Int)
  | update (event_id new_date new_time : String)
  | delete (event_id : String)
  | unknown (name : String)
deriving DecidableEq

/-- One structured tool call from the model: an uninterpreted id plus request. -/
structure ToolCall where
  id : String
  req : ToolReq
deriving DecidableEq

/-- A chat-history message (system / user / assistant / tool-result). -/
inductive Msg where
  | system (content : String)
  | user (content : String)
  | assistant (content : String) (toolCalls : List ToolCall)
  | tool (toolCallId : String) (content : String)
deriving DecidableEq

/-- One model response: optional text content and a (possibly empty) list of
tool calls; the loop branches on whether `toolCalls` is non-empty, matching
Python's truthiness test on `assistant_msg.tool_calls`. -/
structure ModelResp where
  content : Option String
  toolCalls : List ToolCall
deriving DecidableEq

/-- Dispatch of one tool call (`TOOL_MAP[fn_name](calendar, **fn_args)`),
returning the tool-result string and the possibly mutated store. -/
def execTool (calendar : EventStore) : ToolReq → String × EventStore
  | .create title date time dur descr =>
    match create_event calendar title date time dur descr with
    | .ok (eid, cal') => ("Event created successfully! " ++ eid, cal')
    | .error e => (e, calendar)
  | .list date =>
    match list_events calendar date with
    | .ok _ => ("Events listed", calendar)
    | .error e => (e, calendar)
  | .avail date time dur =>
    match check_availability calendar date time dur with
    | .ok _ => ("Availability checked", calendar)
    | .error e => (e, calendar)
  | .update eid nd nt =>
    match update_event calendar eid nd nt with
    | (.ok m, cal') => (m, cal')
    | (.error e, cal') => (e, cal')
  | .delete eid =>
    match delete_event calendar eid with
    | (.ok _, cal') => ("Event cancelled successfully!", cal')
    | (.error e, cal') => (e, cal')
  | .unknown name => ("Unknown tool: " ++ name, calendar)

/-- The message `process_chat` returns when the iteration cap is exhausted. -/
def loopFailMsg : String :=
  "I'm sorry, I had trouble processing that request. Please try again."

/-- Execute one turn's tool calls sequentially, appending one tool-result
message per call (in the order the model specified). -/
def execToolCalls (calendar : EventStore) (hist : List Msg) :
    List ToolCall → List Msg × EventStore
  | [] => (hist, calendar)
  | tc :: rest =>
    let (res, cal') := execTool calendar tc.req
    execToolCalls cal' (hist ++ [.tool tc.id res]) rest

/-- The bounded tool-calling loop of `process_chat`: at most `fuel` model
round-trips; each response either carries tool calls (execute them, loop) or
is the final text answer.  Returns the reply, the final history and store,
and the number of model calls made (instrumentation only — it records how
often the completions API was invoked). -/
def chatLoop (model : List Msg → ModelResp) :
    Nat → List Msg → EventStore → Nat → String × List Msg × EventStore × Nat
  | 0, hist, calendar, calls => (loopFailMsg, hist, calendar, calls)
  | fuel + 1, hist, calendar, calls =>
    let resp := model hist
    match resp.toolCalls with
    | [] =>
      let reply := match resp.content with
        | none => "I processed your request."
        | some c => if c = "" then "I processed your request." else c
      (reply, hist ++ [.assistant reply []], calendar, calls + 1)
    | _ :: _ =>
      let hist₁ := hist ++ [.assistant (resp.content.getD "") resp.toolCalls]
      let (hist₂, cal₂) := execToolCalls calendar hist₁ resp.toolCalls
      chatLoop model fuel hist₂ cal₂ (calls + 1)

/-- `groq_client.process_chat`: append the user message, then run the loop
with the hard cap `max_iterations = 10`. -/
def process_chat (model : List Msg → ModelResp) (chat_history : List Msg)
    (user_message : String) (calendar : EventStore) :
    String × List Msg × EventStore × Nat :=
  chatLoop model 10 (chat_history ++ [.user user_message]) calendar 0

/-! ## Arithmetic of digit strings -/

theorem digitsValAux_nil (a : Nat) : digitsValAux a [] = a := rfl

theorem digitsValAux_cons (a : Nat) (c : Char) (l : List Char) :
    digitsValAux a (c :: l) = digitsValAux (a * 10 + (c.toNat - 48)) l := rfl

theorem digitsValAux_append (a : Nat) (l₁ l₂ : List Char) :
    digitsValAux a (l₁ ++ l₂) = digitsValAux (digitsValAux a l₁) l₂ := by
  induction l₁ generalizing a with
  | nil => rfl
  | cons c cs ih => exact ih (a * 10 + (c.toNat - 48))

theorem digitChar_toNat : ∀ n : Nat, n < 10 → (Nat.digitChar n).toNat = 48 + n := by
  decide

theorem digitChar_isDigit : ∀ n : Nat, n < 10 → (Nat.digitChar n).isDigit = true := by
  decide

theorem natToDigitsAux_val (fuel n : Nat) (h : n < fuel) :
    digitsVal (natToDigitsAux fuel n) = n := by
  induction fuel generalizing n with
  | zero => omega
  | succ fuel ih =>
    by_cases h10 : n < 10
    · simp only [natToDigitsAux, h10, if_true, digitsVal, digitsValAux_cons, digitsValAux_nil]
      rw [digitChar_toNat n h10]
      omega
    · have hn : n / 10 < fuel := by omega
      have hv := ih (n / 10) hn
      simp only [digitsVal] at hv ⊢
      simp only [natToDigitsAux, h10, if_false, digitsValAux_append, hv,
        digitsValAux_cons, digitsValAux_nil]
      rw [digitChar_toNat (n % 10) (by omega)]
      omega

theorem digitsVal_natToDigits (n : Nat) : digitsVal (natToDigits n) = n :=
  natToDigitsAux_val (n + 1) n (by omega)

theorem natToDigitsAux_digits (fuel n : Nat) :
    ∀ c ∈ natToDigitsAux fuel n, c.isDigit = true := by
  induction fuel generalizing n with
  | zero => simp [natToDigitsAux]
  | succ fuel ih =>
    by_cases h10 : n < 10
    · simp [natToDigitsAux, h10, digitChar_isDigit n h10]
    · simp only [natToDigitsAux, h10, if_false]
      intro c hc
      rcases List.mem_append.mp hc with h | h
      · exact ih (n / 10) c h
      · simp at h
        simp [h, digitChar_isDigit (n % 10) (by omega)]

theorem natToDigits_digits (n : Nat) : ∀ c ∈ natToDigits n, c.isDigit = true :=
  natToDigitsAux_digits (n + 1) n

theorem natToDigits_ne_nil (n : Nat) : natToDigits n ≠ [] := by
  unfold natToDigits natToDigitsAux
  by_cases h10 : n < 10 <;> simp [h10]

theorem digitsValAux_replicate_zero (a k : Nat) :
    digitsValAux a (List.replicate k '0') = a * 10 ^ k := by
  induction k generalizing a with
  | zero => simp [digitsValAux_nil]
  | succ k ih =>
    have h0 : ('0' : Char).toNat - 48 = 0 := rfl
    simp only [List.replicate_succ, digitsValAux_cons, h0, Nat.add_zero, ih]
    ring

theorem digitsVal_replicate_zero_append (k : Nat) (l : List Char) :
    digitsVal (List.replicate k '0' ++ l) = digitsVal l := by
  simp [digitsVal, digitsValAux_append, digitsValAux_replicate_zero]

theorem isDigit_ne_chars {c : Char} (h : c.isDigit = true) :
    c ≠ 'E' ∧ c ≠ '-' ∧ c ≠ ':' := by
  refine ⟨?_, ?_, ?_⟩ <;> rintro rfl <;> simp_all [Char.isDigit]

theorem removeEVT_cons_evt (l : List Char) : removeEVT ('E' :: 'V' :: 'T' :: l) = removeEVT l := by
  simp [removeEVT]

theorem removeEVT_digits : ∀ l : List Char, (∀ c ∈ l, c.isDigit = true) → removeEVT l = l
  | [], _ => rfl
  | [c], _ => rfl
  | [c, d], _ => rfl
  | c :: d :: e :: rest, h => by
    have hc : c ≠ 'E' := (isDigit_ne_chars (h c (by simp))).1
    have hrec := removeEVT_digits (d :: e :: rest) (fun x hx => h x (by simp [hx]))
    simp only [removeEVT]
    rw [if_neg (by tauto)]
    rw [hrec]

theorem parseIntPy_digits (l : List Char) (hne : l ≠ []) (h : ∀ c ∈ l, c.isDigit = true) :
    parseIntPy l = some ((digitsVal l : Int)) := by
  match l with
  | c :: cs =>
    have hc : c ≠ '-' := (isDigit_ne_chars (h c (by simp))).2.1
    simp only [parseIntPy, hc, if_false]
    rw [if_pos (by simpa using h)]

/-- The rendered id `EVT` + `f"{n:03d}"` parses back to its own suffix. -/
theorem evtSuffix_evtIdStr (n : Int) (hn : 0 ≤ n) : evtSuffix (evtIdStr n) = some n := by
  have hneg : ¬ n < 0 := by omega
  simp only [evtSuffix, evtIdStr, intPad3, hneg, if_false]
  have hdig : ∀ c ∈ List.replicate (3 - (natToDigits n.toNat).length) '0' ++ natToDigits n.toNat,
      c.isDigit = true := by
    intro c hc
    rcases List.mem_append.mp hc with h | h
    · rcases List.eq_of_mem_replicate h with rfl; decide
    · exact natToDigits_digits n.toNat c h
  have hne : List.replicate (3 - (natToDigits n.toNat).length) '0' ++ natToDigits n.toNat ≠ [] := by
    simp [natToDigits_ne_nil]
  show parseIntPy (removeEVT ('E' :: 'V' :: 'T' ::
      (List.replicate (3 - (natToDigits n.toNat).length) '0' ++ natToDigits n.toNat))) = some n
  rw [removeEVT_cons_evt, removeEVT_digits _ hdig,
    parseIntPy_digits _ hne hdig, digitsVal_replicate_zero_append, digitsVal_natToDigits]
  congr 1
  omega

theorem foldl_max_init (a : Int) (l : List Int) : a ≤ l.foldl max a := by
  induction l generalizing a with
  | nil => simp
  | cons x xs ih => exact le_trans (le_max_left a x) (ih (max a x))

theorem foldl_max_mem (a x : Int) (l : List Int) (h : x ∈ l) : x ≤ l.foldl max a := by
  induction l generalizing a with
  | nil => simp at h
  | cons y ys ih =>
    rcases List.mem_cons.mp h with rfl | h
    · exact le_trans (le_max_right a x) (foldl_max_init _ _)
    · exact ih (max a y) h

theorem maxList_ge (x : Int) (l : List Int) (h : x ∈ l) : x ≤ maxList l := by
  match l with
  | y :: ys =>
    rcases List.mem_cons.mp h with rfl | h
    · exact foldl_max_init x ys
    · exact foldl_max_mem y x ys h

/-! ## Dictionary lemmas -/

theorem dictGet?_eq_none_iff (cal : EventStore) (k : String) :
    dictGet? cal k = none ↔ ∀ kv ∈ cal, kv.1 ≠ k := by
  induction cal with
  | nil => simp [dictGet?]
  | cons kv rest ih =>
    by_cases h : kv.1 = k
    · simp [dictGet?, h]
    · simp [dictGet?, h, ih]

theorem dictSet_fresh (cal : EventStore) (k : String) (v : Event)
    (h : dictGet? cal k = none) : dictSet cal k v = cal ++ [(k, v)] := by
  induction cal with
  | nil => rfl
  | cons kv rest ih =>
    rw [dictGet?_eq_none_iff] at h
    have hk : kv.1 ≠ k := h kv (by simp)
    simp only [dictSet, beq_iff_eq, hk, if_false, List.cons_append, List.cons.injEq, true_and]
    exact ih (by rw [dictGet?_eq_none_iff]; intro x hx; exact h x (by simp [hx]))

theorem dictGet?_set_self (cal : EventStore) (k : String) (v : Event) :
    dictGet? (dictSet cal k v) k = some v := by
  induction cal with
  | nil => simp [dictSet, dictGet?]
  | cons kv rest ih =>
    by_cases h : kv.1 = k
    · simp [dictSet, dictGet?, h]
    · simp [dictSet, dictGet?, h, ih]

theorem dictGet?_set_ne (cal : EventStore) (k k' : String) (v : Event) (h : k' ≠ k) :
    dictGet? (dictSet cal k v) k' = dictGet? cal k' := by
  induction cal with
  | nil => simp [dictSet, dictGet?, Ne.symm h]
  | cons kv rest ih =>
    by_cases hk : kv.1 = k
    · subst hk
      simp only [dictSet, beq_self_eq_true, if_true]
      simp [dictGet?, Ne.symm h, h]
    · by_cases hk' : kv.1 = k'
      · simp [dictSet, dictGet?, hk, hk', h]
      · simp [dictSet, dictGet?, hk, hk', ih]

theorem dictGet?_mem (cal : EventStore) (k : String) (v : Event)
    (h : dictGet? cal k = some v) : (k, v) ∈ cal := by
  induction cal with
  | nil => simp [dictGet?] at h
  | cons kv rest ih =>
    by_cases hk : kv.1 = k
    · simp only [dictGet?, hk, beq_self_eq_true, if_true, Option.some.injEq] at h
      have : kv = (k, v) := by
        rcases kv with ⟨a, b⟩
        simp only at hk h
        rw [hk, h]
      exact this ▸ List.mem_cons_self _ _
    · simp only [dictGet?, hk, beq_iff_eq, if_false] at h
      exact List.mem_cons_of_mem _ (ih h)

theorem dictPop_get_none (cal : EventStore) (k : String)
    (hnd : (cal.map Prod.fst).Nodup) : dictGet? (dictPop cal k) k = none := by
  induction cal with
  | nil => simp [dictPop, dictGet?]
  | cons kv rest ih =>
    simp only [List.map_cons, List.nodup_cons] at hnd
    by_cases h : kv.1 = k
    · subst h
      simp only [dictPop, beq_self_eq_true, if_true]
      rw [dictGet?_eq_none_iff]
      intro x hx hxk
      exact hnd.1 (hxk ▸ List.mem_map_of_mem Prod.fst hx)
    · simp [dictPop, dictGet?, h, ih hnd.2]

theorem dictPop_get_ne (cal : EventStore) (k k' : String) (h : k' ≠ k) :
    dictGet? (dictPop cal k) k' = dictGet? cal k' := by
  induction cal with
  | nil => simp [dictPop]
  | cons kv rest ih =>
    by_cases hk : kv.1 = k
    · subst hk
      simp [dictPop, dictGet?, Ne.symm h]
    · by_cases hk' : kv.1 = k'
      · simp [dictPop, dictGet?, hk, hk', h]
      · simp [dictPop, dictGet?, hk, hk', ih]

theorem dictPop_subset (cal : EventStore) (k : String) :
    ∀ x ∈ dictPop cal k, x ∈ cal := by
  induction cal with
  | nil => simp [dictPop]
  | cons kv rest ih =>
    by_cases h : kv.1 = k
    · simp only [dictPop, h, beq_self_eq_true, if_true]
      intro x hx
      exact List.mem_cons_of_mem _ hx
    · simp only [dictPop, h, beq_iff_eq, if_false]
      intro x hx
      rcases List.mem_cons.mp hx with rfl | hx
      · simp
      · exact List.mem_cons_of_mem _ (ih x hx)

/-! ## Lexicographic order of canonical `HH:MM` strings

Python compares the `start_time` key strings lexicographically by code
point; Lean's `String` order (`List.lt` on `data`, `Char` by code point) is
the same order.  For canonical `strftime("%H:%M")` renderings this string
order agrees with the numeric order of the underlying minutes. -/

theorem charLex_cons_iff {a b : Char} {as bs : List Char} :
    List.Lex (· < ·) (a :: as) (b :: bs) ↔ a < b ∨ (a = b ∧ List.Lex (· < ·) as bs) := by
  constructor
  · intro h
    cases h with
    | cons h => exact Or.inr ⟨rfl, h⟩
    | rel h => exact Or.inl h
  · rintro (hab | ⟨rfl, h⟩)
    · exact List.Lex.rel hab
    · exact List.Lex.cons h

theorem charLex_append {u₁ u₂ : List Char} (v₁ v₂ : List Char)
    (h : u₁.length = u₂.length) :
    List.Lex (· < ·) (u₁ ++ v₁) (u₂ ++ v₂) ↔
      List.Lex (· < ·) u₁ u₂ ∨ (u₁ = u₂ ∧ List.Lex (· < ·) v₁ v₂) := by
  induction u₁ generalizing u₂ with
  | nil =>
    match u₂, h with
    | [], _ =>
      simp only [List.nil_append]
      have hnil : ¬ List.Lex (· < ·) ([] : List Char) [] := fun hx => by cases hx
      tauto
  | cons a as ih =>
    match u₂, h with
    | b :: bs, h =>
      simp only [List.cons_append]
      rw [charLex_cons_iff, charLex_cons_iff, @ih bs (by simpa using h)]
      constructor
      · rintro (hab | ⟨rfl, hrest | ⟨rfl, hv⟩⟩)
        · exact Or.inl (Or.inl hab)
        · exact Or.inl (Or.inr ⟨rfl, hrest⟩)
        · exact Or.inr ⟨rfl, hv⟩
      · rintro ((hab | ⟨rfl, hrest⟩) | ⟨heq, hv⟩)
        · exact Or.inl hab
        · exact Or.inr ⟨rfl, Or.inl hrest⟩
        · obtain ⟨rfl, rfl⟩ := List.cons.inj heq
          exact Or.inr ⟨rfl, Or.inr ⟨rfl, hv⟩⟩

theorem hourBlockLt : ∀ a : Nat, a < 24 → ∀ b : Nat, b < 24 →
    (List.Lex (· < ·) [Nat.digitChar (a / 10), Nat.digitChar (a % 10)]
      [Nat.digitChar (b / 10), Nat.digitChar (b % 10)] ↔ a < b) := by
  decide

theorem minBlockLt : ∀ a : Nat, a < 60 → ∀ b : Nat, b < 60 →
    (List.Lex (· < ·) [Nat.digitChar (a / 10), Nat.digitChar (a % 10)]
      [Nat.digitChar (b / 10), Nat.digitChar (b % 10)] ↔ a < b) := by
  decide

theorem hourBlock_eq_iff {a b : Nat} (ha : a < 24) (hb : b < 24) :
    ([Nat.digitChar (a / 10), Nat.digitChar (a % 10)] : List Char) =
      [Nat.digitChar (b / 10), Nat.digitChar (b % 10)] ↔ a = b := by
  constructor
  · intro h
    by_contra hne
    rcases Nat.lt_or_ge a b with hlt | hge
    · have := (hourBlockLt a ha b hb).mpr hlt
      rw [h] at this
      exact absurd this (by
        intro hx
        rcases charLex_cons_iff.mp hx with h1 | ⟨_, h2⟩
        · exact lt_irrefl _ h1
        · rcases charLex_cons_iff.mp h2 with h3 | ⟨_, h4⟩
          · exact lt_irrefl _ h3
          · cases h4)
    · have hlt : b < a := by omega
      have := (hourBlockLt b hb a ha).mpr hlt
      rw [h] at this
      exact absurd this (by
        intro hx
        rcases charLex_cons_iff.mp hx with h1 | ⟨_, h2⟩
        · exact lt_irrefl _ h1
        · rcases charLex_cons_iff.mp h2 with h3 | ⟨_, h4⟩
          · exact lt_irrefl _ h3
          · cases h4)
  · rintro rfl
    rfl

theorem fmtHM_lt_iff {m₁ m₂ : Nat} (h₁ : m₁ < 1440) (h₂ : m₂ < 1440) :
    fmtHM m₁ < fmtHM m₂ ↔ m₁ < m₂ := by
  have hb₁ : m₁ / 60 < 24 := by omega
  have hb₂ : m₂ / 60 < 24 := by omega
  have hm₁ : m₁ % 60 < 60 := by omega
  have hm₂ : m₂ % 60 < 60 := by omega
  rw [String.lt_iff_toList_lt]
  show List.Lex (· < ·) (fmtHM m₁).data (fmtHM m₂).data ↔ m₁ < m₂
  have hd : ∀ m : Nat, (fmtHM m).data =
      ([Nat.digitChar (m / 60 / 10), Nat.digitChar (m / 60 % 10)] : List Char) ++
        (':' :: [Nat.digitChar (m % 60 / 10), Nat.digitChar (m % 60 % 10)]) :=
    fun _ => rfl
  rw [hd, hd, charLex_append _ _ (by rfl)]
  have hcolon : ¬ (':' : Char) < ':' := by decide
  rw [hourBlockLt _ hb₁ _ hb₂, hourBlock_eq_iff hb₁ hb₂, charLex_cons_iff,
    minBlockLt _ hm₁ _ hm₂]
  simp only [hcolon, false_or, true_and, eq_self_iff_true]
  omega

theorem fmtHM_le_iff {m₁ m₂ : Nat} (h₁ : m₁ < 1440) (h₂ : m₂ < 1440) :
    fmtHM m₁ ≤ fmtHM m₂ ↔ m₁ ≤ m₂ := by
  rw [← not_lt, fmtHM_lt_iff h₂ h₁]
  omega

/-- `startLE` is exactly the ambient string order on the `start_time` keys. -/
theorem startLE_iff (a b : String × Event) :
    startLE a b ↔ a.2.start_time ≤ b.2.start_time := by
  rw [show (a.2.start_time ≤ b.2.start_time) ↔ ¬ b.2.start_time < a.2.start_time from
    not_lt.symm, String.lt_iff_toList_lt]
  exact Iff.rfl

instance : IsTotal (String × Event) startLE :=
  ⟨fun a b => by
    rw [startLE_iff, startLE_iff]
    exact le_total a.2.start_time b.2.start_time⟩

instance : IsTrans (String × Event) startLE :=
  ⟨fun a b c hab hbc => by
    rw [startLE_iff] at hab hbc ⊢
    exact le_trans hab hbc⟩

/-! ## The `timeVal?` observation and its relation to `fmtHM` -/

theorem isDigit_toNat_bounds {c : Char} (h : c.isDigit = true) :
    48 ≤ c.toNat ∧ c.toNat ≤ 57 := by
  simp only [Char.isDigit, Bool.and_eq_true, decide_eq_true_eq, ge_iff_le] at h
  exact ⟨h.1, h.2⟩

theorem digitChar_of_isDigit {c : Char} (h : c.isDigit = true) :
    Nat.digitChar (c.toNat - 48) = c := by
  have hb := isDigit_toNat_bounds h
  have h1 : (Nat.digitChar (c.toNat - 48)).toNat = c.toNat := by
    rw [digitChar_toNat _ (by omega)]
    omega
  exact Char.ext (UInt32.toNat.inj h1)

theorem timeVal?_fmtHM {m : Nat} (h : m < 1440) : timeVal? (fmtHM m) = some m := by
  have h10 : m / 60 / 10 < 10 := by omega
  have h11 : m / 60 % 10 < 10 := by omega
  have h12 : m % 60 / 10 < 10 := by omega
  have h13 : m % 60 % 10 < 10 := by omega
  have hval : ∀ x : Nat, x < 10 → ∀ y : Nat, y < 10 →
      digitsVal [Nat.digitChar x, Nat.digitChar y] = 10 * x + y := by
    intro x hx y hy
    simp only [digitsVal, digitsValAux_cons, digitsValAux_nil,
      digitChar_toNat _ hx, digitChar_toNat _ hy]
    omega
  show (match (fmtHM m).data with
    | [a, b, c, d, e] =>
      if a.isDigit = true ∧ b.isDigit = true ∧ c = ':' ∧ d.isDigit = true ∧ e.isDigit = true then
        if digitsVal [a, b] ≤ 23 ∧ digitsVal [d, e] ≤ 59 then
          some (digitsVal [a, b] * 60 + digitsVal [d, e])
        else none
      else none
    | _ => none) = some m
  simp only [show (fmtHM m).data =
      [Nat.digitChar (m / 60 / 10), Nat.digitChar (m / 60 % 10), ':',
       Nat.digitChar (m % 60 / 10), Nat.digitChar (m % 60 % 10)] from rfl]
  rw [if_pos ⟨digitChar_isDigit _ h10, digitChar_isDigit _ h11, True.intro,
    digitChar_isDigit _ h12, digitChar_isDigit _ h13⟩]
  rw [hval _ h10 _ h11, hval _ h12 _ h13]
  rw [if_pos (by omega)]
  congr 1
  omega

theorem timeVal?_eq_some {s : String} {m : Nat} (h : timeVal? s = some m) :
    m < 1440 ∧ s = fmtHM m := by
  obtain ⟨l⟩ := s
  rcases l with _ | ⟨a, _ | ⟨b, _ | ⟨c, _ | ⟨d, _ | ⟨e, _ | ⟨f, rest⟩⟩⟩⟩⟩⟩
  case nil => simp [timeVal?] at h
  case cons.nil => simp [timeVal?] at h
  case cons.cons.nil => simp [timeVal?] at h
  case cons.cons.cons.nil => simp [timeVal?] at h
  case cons.cons.cons.cons.nil => simp [timeVal?] at h
  case cons.cons.cons.cons.cons.cons => simp [timeVal?] at h
  case cons.cons.cons.cons.cons.nil =>
    simp only [timeVal?] at h
    by_cases hcond : a.isDigit = true ∧ b.isDigit = true ∧ c = ':' ∧
        d.isDigit = true ∧ e.isDigit = true
    · rw [if_pos hcond] at h
      by_cases hbound : digitsVal [a, b] ≤ 23 ∧ digitsVal [d, e] ≤ 59
      · rw [if_pos hbound] at h
        have hm := (Option.some.inj h).symm
        obtain ⟨ha, hb, hc, hd, he⟩ := hcond
        have hba := isDigit_toNat_bounds ha
        have hbb := isDigit_toNat_bounds hb
        have hbd := isDigit_toNat_bounds hd
        have hbe := isDigit_toNat_bounds he
        have hvab : digitsVal [a, b] = 10 * (a.toNat - 48) + (b.toNat - 48) := by
          simp only [digitsVal, digitsValAux_cons, digitsValAux_nil]
          omega
        have hvde : digitsVal [d, e] = 10 * (d.toNat - 48) + (e.toNat - 48) := by
          simp only [digitsVal, digitsValAux_cons, digitsValAux_nil]
          omega
        constructor
        · omega
        · have hmdiv : m / 60 = digitsVal [a, b] := by omega
          have hmmod : m % 60 = digitsVal [d, e] := by omega
          have hdata : (fmtHM m).data = [a, b, c, d, e] := by
            simp only [show ∀ k : Nat, (fmtHM k).data =
                [Nat.digitChar (k / 60 / 10), Nat.digitChar (k / 60 % 10), ':',
                 Nat.digitChar (k % 60 / 10), Nat.digitChar (k % 60 % 10)] from fun _ => rfl,
              hmdiv, hmmod, hvab, hvde]
            have e1 : (10 * (a.toNat - 48) + (b.toNat - 48)) / 10 = a.toNat - 48 := by omega
            have e2 : (10 * (a.toNat - 48) + (b.toNat - 48)) % 10 = b.toNat - 48 := by omega
            have e3 : (10 * (d.toNat - 48) + (e.toNat - 48)) / 10 = d.toNat - 48 := by omega
            have e4 : (10 * (d.toNat - 48) + (e.toNat - 48)) % 10 = e.toNat - 48 := by omega
            rw [e1, e2, e3, e4, digitChar_of_isDigit ha, digitChar_of_isDigit hb,
              digitChar_of_isDigit hd, digitChar_of_isDigit he, hc]
          exact (congrArg String.mk hdata).symm
      · rw [if_neg hbound] at h
        exact absurd h (by simp)
    · rw [if_neg hcond] at h
      exact absurd h (by simp)

/-! ## `parseHM` facts -/

theorem parseHM_lt_1440 {s : String} {v : Nat} (h : parseHM s = some v) : v < 1440 := by
  unfold parseHM at h
  rcases hsp : splitOnChar ':' s.data with _ | ⟨a, _ | ⟨b, _ | ⟨c, rest⟩⟩⟩ <;> rw [hsp] at h
  · exact absurd h (by simp)
  · exact absurd h (by simp)
  · replace h : (if a ≠ [] ∧ a.length ≤ 2 ∧ a.all Char.isDigit = true ∧
        b ≠ [] ∧ b.length ≤ 2 ∧ b.all Char.isDigit = true then
        if digitsVal a ≤ 23 ∧ digitsVal b ≤ 59 then
          some (digitsVal a * 60 + digitsVal b)
        else none
      else none) = some v := h
    split_ifs at h with h1 h2
    have := Option.some.inj h
    omega
  · exact absurd h (by simp)

set_option maxRecDepth 4000 in
/-- Round trip: a canonically rendered time parses back to its minutes.
(Checked exhaustively over the 24 × 60 possible times.) -/
theorem parseHM_fmtHM_hm : ∀ h : Nat, h < 24 → ∀ mi : Nat, mi < 60 →
    parseHM (fmtHM (h * 60 + mi)) = some (h * 60 + mi) := by decide

theorem parseHM_fmtHM {m : Nat} (h : m < 1440) : parseHM (fmtHM m) = some m := by
  have := parseHM_fmtHM_hm (m / 60) (by omega) (m % 60) (by omega)
  rwa [show m / 60 * 60 + m % 60 = m by omega] at this

/-! ## `collectConflicts` facts -/

theorem collectConflicts_ok (rs re : Int) (date : String) (cal : EventStore)
    (hwf : ∀ kv ∈ cal, kv.2.date = date →
      (parseHM kv.2.start_time).isSome = true ∧ (parseHM kv.2.end_time).isSome = true) :
    ∃ cs, collectConflicts rs re date cal = .ok cs := by
  induction cal with
  | nil => exact ⟨[], rfl⟩
  | cons kv rest ih =>
    obtain ⟨cs, hcs⟩ := ih (fun x hx hd => hwf x (by simp [hx]) hd)
    by_cases hd : kv.2.date = date
    · obtain ⟨hs, he⟩ := hwf kv (by simp) hd
      rcases hps : parseHM kv.2.start_time with _ | es
      · rw [hps] at hs
        simp at hs
      · rcases hpe : parseHM kv.2.end_time with _ | ee
        · rw [hpe] at he
          simp at he
        · refine ⟨if rs < (ee : Int) ∧ (es : Int) < re then kv :: cs else cs, ?_⟩
          simp only [collectConflicts, hd, beq_self_eq_true, if_true, hps, hpe, hcs]
    · refine ⟨cs, ?_⟩
      simp only [collectConflicts, beq_iff_eq, hd, if_false]
      exact hcs

theorem collectConflicts_mem {rs re : Int} {date : String} {cal : EventStore}
    {cs : List (String × Event)} (h : collectConflicts rs re date cal = .ok cs)
    (x : String × Event) :
    x ∈ cs ↔ (x ∈ cal ∧ x.2.date = date ∧
      ∃ es ee, parseHM x.2.start_time = some es ∧ parseHM x.2.end_time = some ee ∧
        rs < (ee : Int) ∧ (es : Int) < re) := by
  induction cal generalizing cs with
  | nil =>
    simp only [collectConflicts, Except.ok.injEq] at h
    subst h
    simp
  | cons kv rest ih =>
    by_cases hd : kv.2.date = date
    · rcases hps : parseHM kv.2.start_time with _ | es
      · simp only [collectConflicts, hd, beq_self_eq_true, if_true, hps] at h
        exact Except.noConfusion h
      · rcases hpe : parseHM kv.2.end_time with _ | ee
        · simp only [collectConflicts, hd, beq_self_eq_true, if_true, hps, hpe] at h
          exact Except.noConfusion h
        · rcases hrest : collectConflicts rs re date rest with e | cs'
          · simp only [collectConflicts, hd, beq_self_eq_true, if_true, hps, hpe, hrest] at h
            exact Except.noConfusion h
          · simp only [collectConflicts, hd, beq_self_eq_true, if_true, hps, hpe, hrest,
              Except.ok.injEq] at h
            subst h
            by_cases hhit : rs < (ee : Int) ∧ (es : Int) < re
            · rw [if_pos hhit]
              constructor
              · intro hx
                rcases List.mem_cons.mp hx with rfl | hx
                · exact ⟨by simp, hd, es, ee, hps, hpe, hhit⟩
                · obtain ⟨h1, h2, h3⟩ := (ih hrest).mp hx
                  exact ⟨by simp [h1], h2, h3⟩
              · rintro ⟨hmem, hxd, es', ee', hps', hpe', hover⟩
                rcases List.mem_cons.mp hmem with rfl | hmem
                · simp
                · exact List.mem_cons_of_mem _ ((ih hrest).mpr ⟨hmem, hxd, es', ee', hps', hpe', hover⟩)
            · rw [if_neg hhit]
              rw [ih hrest]
              constructor
              · rintro ⟨h1, h2, h3⟩
                exact ⟨by simp [h1], h2, h3⟩
              · rintro ⟨hmem, hxd, es', ee', hps', hpe', hover⟩
                rcases List.mem_cons.mp hmem with rfl | hmem
                · rw [hps'] at hps
                  rw [hpe'] at hpe
                  cases hps
                  cases hpe
                  exact absurd hover hhit
                · exact ⟨hmem, hxd, es', ee', hps', hpe', hover⟩
    · simp only [collectConflicts, beq_iff_eq, hd, if_false] at h
      rw [ih h]
      constructor
      · rintro ⟨h1, h2, h3⟩
        exact ⟨by simp [h1], h2, h3⟩
      · rintro ⟨hmem, hxd, h3⟩
        rcases List.mem_cons.mp hmem with rfl | hmem
        · exact absurd hxd hd
        · exact ⟨hmem, hxd, h3⟩

theorem collectConflicts_sublist {rs re : Int} {date : String} {cal : EventStore}
    {cs : List (String × Event)} (h : collectConflicts rs re date cal = .ok cs) :
    cs.Sublist cal := by
  induction cal generalizing cs with
  | nil =>
    simp only [collectConflicts, Except.ok.injEq] at h
    subst h
    exact List.Sublist.refl []
  | cons kv rest ih =>
    by_cases hd : kv.2.date = date
    · rcases hps : parseHM kv.2.start_time with _ | es
      · simp only [collectConflicts, hd, beq_self_eq_true, if_true, hps] at h
        exact Except.noConfusion h
      · rcases hpe : parseHM kv.2.end_time with _ | ee
        · simp only [collectConflicts, hd, beq_self_eq_true, if_true, hps, hpe] at h
          exact Except.noConfusion h
        · rcases hrest : collectConflicts rs re date rest with e | cs'
          · simp only [collectConflicts, hd, beq_self_eq_true, if_true, hps, hpe, hrest] at h
            exact Except.noConfusion h
          · simp only [collectConflicts, hd, beq_self_eq_true, if_true, hps, hpe, hrest,
              Except.ok.injEq] at h
            subst h
            by_cases hhit : rs < (ee : Int) ∧ (es : Int) < re
            · rw [if_pos hhit]
              exact (ih hrest).cons₂ kv
            · rw [if_neg hhit]
              exact (ih hrest).cons kv
    · simp only [collectConflicts, beq_iff_eq, hd, if_false] at h
      exact (ih h).cons kv

/-! ## `get_next_event_id` facts -/

/-- A well-formed key: its `EVT`-stripped suffix parses as a non-negative
integer (every key the application itself creates has this shape). -/
def wfKeyB (k : String) : Bool :=
  match evtSuffix k with
  | some n => decide (0 ≤ n)
  | none => false

theorem wfKeyB_iff {k : String} :
    wfKeyB k = true ↔ ∃ n : Int, evtSuffix k = some n ∧ 0 ≤ n := by
  unfold wfKeyB
  rcases h : evtSuffix k with _ | n
  · simp
  · simp

theorem allSuffixes_of_wf (cal : EventStore) (h : ∀ kv ∈ cal, wfKeyB kv.1 = true) :
    ∃ ns, allSuffixes cal = some ns ∧
      (∀ kv ∈ cal, ∀ n, evtSuffix kv.1 = some n → n ∈ ns) ∧
      (∀ n ∈ ns, 0 ≤ n) ∧ ns.length = cal.length := by
  induction cal with
  | nil => exact ⟨[], rfl, by simp, by simp, rfl⟩
  | cons kv rest ih =>
    obtain ⟨ns, hns, hmem, hpos, hlen⟩ := ih (fun x hx => h x (by simp [hx]))
    obtain ⟨n, hn, hn0⟩ := wfKeyB_iff.mp (h kv (by simp))
    refine ⟨n :: ns, ?_, ?_, ?_, ?_⟩
    · simp only [allSuffixes, hn, hns]
    · intro x hx m hm
      rcases List.mem_cons.mp hx with rfl | hx
      · rw [hm] at hn
        simp [Option.some.inj hn]
      · simp [hmem x hx m hm]
    · intro m hm
      rcases List.mem_cons.mp hm with rfl | hm
      · exact hn0
      · exact hpos m hm
    · simp [hlen]

theorem get_next_event_id_spec (cal : EventStore) (hne : cal ≠ [])
    (hwf : ∀ kv ∈ cal, wfKeyB kv.1 = true) :
    ∃ ns, allSuffixes cal = some ns ∧ 0 ≤ maxList ns ∧
      get_next_event_id cal = some (evtIdStr (maxList ns + 1)) ∧
      (∀ kv ∈ cal, ∀ n : Int, evtSuffix kv.1 = some n → n < maxList ns + 1) ∧
      (∀ kv ∈ cal, kv.1 ≠ evtIdStr (maxList ns + 1)) := by
  obtain ⟨ns, hns, hmem, hpos, hlen⟩ := allSuffixes_of_wf cal hwf
  have hns_ne : ns ≠ [] := by
    intro hnil
    rw [hnil] at hlen
    exact hne (List.eq_nil_of_length_eq_zero hlen.symm)
  have hmax0 : 0 ≤ maxList ns := by
    match ns, hns_ne with
    | n :: ns', _ => exact le_trans (hpos n (by simp)) (maxList_ge n (n :: ns') (by simp))
  refine ⟨ns, hns, hmax0, ?_, ?_, ?_⟩
  · match cal, hne with
    | kv :: rest, _ => simp only [get_next_event_id, hns]
  · intro kv hkv n hn
    have := maxList_ge n ns (hmem kv hkv n hn)
    omega
  · intro kv hkv heq
    obtain ⟨n, hn, _⟩ := wfKeyB_iff.mp (hwf kv hkv)
    have hlt := maxList_ge n ns (hmem kv hkv n hn)
    rw [heq] at hn
    rw [evtSuffix_evtIdStr _ (by omega)] at hn
    have := Option.some.inj hn
    omega

/-! ## `list_events` facts -/

theorem list_events_ok (cal : EventStore) (date : String)
    (hwf : ∀ kv ∈ cal, kv.2.date = date →
      (parseHM kv.2.start_time).isSome = true ∧ (parseHM kv.2.end_time).isSome = true) :
    list_events cal date =
      .ok ((cal.filter (fun kv => kv.2.date == date)).insertionSort startLE) := by
  unfold list_events
  by_cases hemp : (cal.filter (fun kv => kv.2.date == date)).isEmpty
  · rw [if_pos hemp]
    rw [List.isEmpty_iff] at hemp
    rw [hemp]
    rfl
  · rw [if_neg hemp]
    rw [if_pos]
    rw [List.all_eq_true]
    intro kv hkv
    have hmem := (List.mem_insertionSort startLE).mp hkv
    obtain ⟨hcal, hdate⟩ := List.mem_filter.mp hmem
    obtain ⟨h1, h2⟩ := hwf kv hcal (by simpa using hdate)
    simp [h1, h2]

theorem list_events_sub {cal : EventStore} {date : String} {l : List (String × Event)}
    (h : list_events cal date = .ok l) :
    ∀ x ∈ l, x ∈ cal ∧ x.2.date = date := by
  unfold list_events at h
  by_cases hemp : (cal.filter (fun kv => kv.2.date == date)).isEmpty
  · rw [if_pos hemp] at h
    cases h
    simp
  · rw [if_neg hemp] at h
    by_cases hall : ((cal.filter (fun kv => kv.2.date == date)).insertionSort startLE).all
        (fun kv => (parseHM kv.2.start_time).isSome && (parseHM kv.2.end_time).isSome)
    · rw [if_pos hall] at h
      cases h
      intro x hx
      obtain ⟨h1, h2⟩ := List.mem_filter.mp ((List.mem_insertionSort startLE).mp hx)
      exact ⟨h1, by simpa using h2⟩
    · rw [if_neg hall] at h
      exact Except.noConfusion h

/-- `get_next_event_id` succeeds on a store whose keys are all well-formed,
and the allocated id is fresh. -/
theorem get_next_event_id_wf (cal : EventStore)
    (hwf : ∀ kv ∈ cal, wfKeyB kv.1 = true) :
    ∃ eid, get_next_event_id cal = some eid ∧ ∀ kv ∈ cal, kv.1 ≠ eid := by
  cases hcal : cal with
  | nil => exact ⟨"EVT001", rfl, by simp⟩
  | cons kv rest =>
    subst hcal
    obtain ⟨ns, _, _, hid, _, hfresh⟩ :=
      get_next_event_id_spec (kv :: rest) (by simp) hwf
    exact ⟨evtIdStr (maxList ns + 1), hid, hfresh⟩

/-! ## The claims -/

/-- **C1.**  For every well-formed `create_event` input (parseable date and
time, positive duration, start + duration within the same day) over a store
whose keys are well-formed `EVT`-ids and whose stored times parse, the
operation succeeds unconditionally — no overlap check can reject it: it
appends a record under a freshly allocated id (distinct from every existing
key), the record's `end_time` renders exactly `start + duration_minutes`
minutes, and a subsequent `list_events date` succeeds and contains the new
entry. -/
theorem create_event_spec
    (cal : EventStore) (title date time descr : String) (dur : Int) (s : Nat)
    (hdate : (parseDate date).isSome = true)
    (htime : parseHM time = some s)
    (hdur : 0 < dur)
    (hday : (s : Int) + dur < 1440)
    (hkeys : ∀ kv ∈ cal, wfKeyB kv.1 = true)
    (htimes : ∀ kv ∈ cal, (parseHM kv.2.start_time).isSome = true ∧
      (parseHM kv.2.end_time).isSome = true) :
    ∃ eid evt,
      create_event cal title date time dur descr = .ok (eid, cal ++ [(eid, evt)]) ∧
      (∀ kv ∈ cal, kv.1 ≠ eid) ∧
      evt.title = title ∧ evt.date = date ∧ evt.description = descr ∧
      timeVal? evt.start_time = some s ∧
      timeVal? evt.end_time = some (s + dur.toNat) ∧
      ∃ l, list_events (cal ++ [(eid, evt)]) date = .ok l ∧ (eid, evt) ∈ l := by
  obtain ⟨eid, hid, hfresh⟩ := get_next_event_id_wf cal hkeys
  have hs1440 : s < 1440 := parseHM_lt_1440 htime
  have hmod : (((s : Int) + dur) % 1440).toNat = s + dur.toNat := by
    rw [Int.emod_eq_of_lt (by omega) hday]
    omega
  rcases hd : parseDate date with _ | dval
  · rw [hd] at hdate
    simp at hdate
  · apply Exists.intro eid
    apply Exists.intro
      (Event.mk title date (fmtHM s) (fmtHM (((s : Int) + dur) % 1440).toNat) descr)
    refine ⟨?_, hfresh, rfl, rfl, rfl, ?_, ?_, ?_⟩
    · have hnone : dictGet? cal eid = none :=
        (dictGet?_eq_none_iff cal eid).mpr hfresh
      have hstep : create_event cal title date time dur descr =
          .ok (eid, dictSet cal eid (Event.mk title date (fmtHM s)
            (fmtHM (((s : Int) + dur) % 1440).toNat) descr)) := by
        unfold create_event
        rw [hd, htime, hid]
      rw [hstep, dictSet_fresh cal eid _ hnone]
    · exact timeVal?_fmtHM hs1440
    · rw [hmod]
      exact timeVal?_fmtHM (by omega)
    · set evt : Event := Event.mk title date (fmtHM s)
        (fmtHM (((s : Int) + dur) % 1440).toNat) descr with hevt
      have hwf' : ∀ kv ∈ cal ++ [(eid, evt)], kv.2.date = date →
          (parseHM kv.2.start_time).isSome = true ∧ (parseHM kv.2.end_time).isSome = true := by
        intro kv hkv _
        rcases List.mem_append.mp hkv with hkv | hkv
        · exact htimes kv hkv
        · simp only [List.mem_singleton] at hkv
          subst hkv
          constructor
          · simp only [hevt, parseHM_fmtHM hs1440, Option.isSome_some]
          · simp only [hevt, hmod, parseHM_fmtHM (show s + dur.toNat < 1440 by omega),
              Option.isSome_some]
      refine ⟨_, list_events_ok _ date hwf', ?_⟩
      rw [List.mem_insertionSort startLE, List.mem_filter]
      constructor
      · simp
      · simp [hevt]

/-- **C4.**  Id allocation: `EVT001` on the empty store; otherwise
`EVT` + (max numeric suffix + 1), zero-padded to 3 digits (`evtIdStr`
renders `f"EVT{n:03d}"`).  The allocated id's suffix strictly exceeds every
suffix present, so ids from successive creates are unique and strictly
increasing; allocation is a pure function of the store's contents (it is a
Lean function of `cal` alone). -/
theorem get_next_event_id_claim
    (cal : EventStore) (hne : cal ≠ []) (hwf : ∀ kv ∈ cal, wfKeyB kv.1 = true) :
    get_next_event_id ([] : EventStore) = some "EVT001" ∧
    ∃ ns, allSuffixes cal = some ns ∧
      get_next_event_id cal = some (evtIdStr (maxList ns + 1)) ∧
      (∀ kv ∈ cal, ∀ n : Int, evtSuffix kv.1 = some n → n < maxList ns + 1) ∧
      (∀ kv ∈ cal, kv.1 ≠ evtIdStr (maxList ns + 1)) := by
  obtain ⟨ns, h1, _, h3, h4, h5⟩ := get_next_event_id_spec cal hne hwf
  exact ⟨rfl, ns, h1, h3, h4, h5⟩

/-- An arbitrary placeholder record used by concrete witness stores. -/
def wEvt : Event :=
  { title := "Team Standup", date := "2026-02-23", start_time := "10:00",
    end_time := "10:30", description := "Daily team sync" }

/-- Witness for C4 at the store `{EVT001, EVT003}`: the allocation the claim
promises, `EVT004`. -/
theorem get_next_event_id_claim_witness :
    get_next_event_id [("EVT001", wEvt), ("EVT003", wEvt)] = some "EVT004" := by
  obtain ⟨-, ns, h1, h2, -, -⟩ :=
    get_next_event_id_claim [("EVT001", wEvt), ("EVT003", wEvt)] (by simp) (by decide)
  have hns : allSuffixes [("EVT001", wEvt), ("EVT003", wEvt)] = some [(1 : Int), 3] := by decide
  rw [hns] at h1
  have := Option.some.inj h1
  subst this
  rw [h2]
  decide

/-- Witness for C1: creating a 45-minute event at 09:00 into a one-event
store succeeds, allocates a fresh id, and the event shows up in the listing. -/
theorem create_event_spec_witness :
    ∃ eid evt,
      create_event [("EVT001", wEvt)] "Planning" "2026-02-24" "09:00" 45 "" =
        .ok (eid, [("EVT001", wEvt)] ++ [(eid, evt)]) ∧
      (∀ kv ∈ [("EVT001", wEvt)], kv.1 ≠ eid) ∧
      evt.title = "Planning" ∧ evt.date = "2026-02-24" ∧ evt.description = "" ∧
      timeVal? evt.start_time = some 540 ∧
      timeVal? evt.end_time = some (540 + (45 : Int).toNat) ∧
      ∃ l, list_events ([("EVT001", wEvt)] ++ [(eid, evt)]) "2026-02-24" = .ok l ∧
        (eid, evt) ∈ l :=
  create_event_spec [("EVT001", wEvt)] "Planning" "2026-02-24" "09:00" "" 45 540
    (by decide) (by decide) (by decide) (by decide) (by decide) (by decide)

/-- The event of C2's create/check scenario (10:00 + 30 minutes). -/
def scenEvt : Event :=
  { title := "Standup", date := "2026-02-23", start_time := "10:00",
    end_time := "10:30", description := "" }

/-- **C2.**  `check_availability` uses half-open intervals: a stored event on
the requested date conflicts iff `req_start < evt_end ∧ evt_start < req_end`,
so touching intervals do not conflict.  Concretely: after creating the
10:00–10:30 event into an empty store, checking 10:15 for 10 minutes is busy
with exactly that event, and checking 10:30 for 15 minutes is available.
A busy slot is a normal `.ok` result, never the error branch. -/
theorem check_availability_spec
    (cal : EventStore) (date time : String) (dur : Int) (rq : Nat)
    (hdate : (parseDate date).isSome = true)
    (htime : parseHM time = some rq)
    (hwf : ∀ kv ∈ cal, kv.2.date = date →
      (parseHM kv.2.start_time).isSome = true ∧ (parseHM kv.2.end_time).isSome = true) :
    (∃ cs, check_availability cal date time dur = .ok cs ∧
      ∀ x ∈ cal, x.2.date = date → ∀ es ee : Nat, parseHM x.2.start_time = some es →
        parseHM x.2.end_time = some ee →
        (x ∈ cs ↔ ((rq : Int) < (ee : Int) ∧ (es : Int) < (rq : Int) + dur))) ∧
    create_event [] "Standup" "2026-02-23" "10:00" 30 "" =
      .ok ("EVT001", [("EVT001", scenEvt)]) ∧
    check_availability [("EVT001", scenEvt)] "2026-02-23" "10:15" 10 =
      .ok [("EVT001", scenEvt)] ∧
    check_availability [("EVT001", scenEvt)] "2026-02-23" "10:30" 15 = .ok [] := by
  refine ⟨?_, by decide, by decide, by decide⟩
  rcases hd : parseDate date with _ | dval
  · rw [hd] at hdate
    simp at hdate
  · obtain ⟨cs, hcs⟩ := collectConflicts_ok (rq : Int) ((rq : Int) + dur) date cal hwf
    refine ⟨cs, ?_, ?_⟩
    · unfold check_availability
      rw [hd, htime]
      exact hcs
    · intro x hx hxd es ee hes hee
      rw [collectConflicts_mem hcs x]
      constructor
      · rintro ⟨-, -, es', ee', hes', hee', h1, h2⟩
        rw [hes'] at hes
        rw [hee'] at hee
        have h3 := Option.some.inj hes
        have h4 := Option.some.inj hee
        subst h3
        subst h4
        exact ⟨h1, h2⟩
      · rintro ⟨h1, h2⟩
        exact ⟨hx, hxd, es, ee, hes, hee, h1, h2⟩

/-- Witness for C2 on a one-event store. -/
theorem check_availability_spec_witness :
    (∃ cs, check_availability [("EVT001", scenEvt)] "2026-02-23" "10:15" 10 = .ok cs ∧
      ∀ x ∈ [("EVT001", scenEvt)], x.2.date = "2026-02-23" →
        ∀ es ee : Nat, parseHM x.2.start_time = some es →
        parseHM x.2.end_time = some ee →
        (x ∈ cs ↔ ((615 : Int) < (ee : Int) ∧ (es : Int) < (615 : Int) + 10))) ∧
    create_event [] "Standup" "2026-02-23" "10:00" 30 "" =
      .ok ("EVT001", [("EVT001", scenEvt)]) ∧
    check_availability [("EVT001", scenEvt)] "2026-02-23" "10:15" 10 =
      .ok [("EVT001", scenEvt)] ∧
    check_availability [("EVT001", scenEvt)] "2026-02-23" "10:30" 15 = .ok [] :=
  check_availability_spec [("EVT001", scenEvt)] "2026-02-23" "10:15" 10 615
    (by decide) (by decide) (by decide)

/-- **C8.**  Code behaviour at the claim's failing input: `create_event`
with `duration_minutes = 0` (and with `-30`) does **not** return a failure
payload — no exception arises, so the event is created and stored with
`end_time ≤ start_time`, contradicting the claimed validation. -/
theorem create_event_nonpositive_duration :
    create_event [] "Team Sync" "2026-02-23" "10:00" 0 "" =
      .ok ("EVT001", [("EVT001",
        { title := "Team Sync", date := "2026-02-23", start_time := "10:00",
          end_time := "10:00", description := "" })]) ∧
    create_event [] "Team Sync" "2026-02-23" "10:00" (-30) "" =
      .ok ("EVT001", [("EVT001",
        { title := "Team Sync", date := "2026-02-23", start_time := "10:00",
          end_time := "09:30", description := "" })]) := by
  exact ⟨by decide, by decide⟩

/-- An 11:00–11:30 event, inserted *first* in C9's counterexample store. -/
def cexLate : Event :=
  { title := "Late", date := "2026-02-23", start_time := "11:00",
    end_time := "11:30", description := "" }

/-- A 10:00–10:30 event, inserted *second* in C9's counterexample store. -/
def cexEarly : Event :=
  { title := "Early", date := "2026-02-23", start_time := "10:00",
    end_time := "10:30", description := "" }

/-- **C9, counterexample.**  `check_availability` returns conflicts in store
iteration order, not sorted by start time: with the 11:00 event inserted
before the 10:00 event, a request overlapping both returns the 11:00 event
first, so the conflict list is not ascending by `start_time`. -/
theorem check_availability_conflicts_not_sorted :
    check_availability [("EVT001", cexLate), ("EVT002", cexEarly)]
        "2026-02-23" "10:00" 120 =
      .ok [("EVT001", cexLate), ("EVT002", cexEarly)] ∧
    timeVal? cexLate.start_time = some 660 ∧
    timeVal? cexEarly.start_time = some 600 ∧
    ¬ List.Pairwise startLE [("EVT001", cexLate), ("EVT002", cexEarly)] := by
  refine ⟨by decide, by decide, by decide, ?_⟩
  intro h
  have := List.rel_of_pairwise_cons h (List.mem_singleton.mpr rfl)
  exact absurd this (by decide)

/-- **C9, amended.**  The conflicts of a successful `check_availability` are
the overlapping events listed in store (insertion/iteration) order: the
conflict list is a sublist of the store, and a busy slot is still a normal
`.ok` result. -/
theorem check_availability_conflicts_store_order
    (cal : EventStore) (date time : String) (dur : Int) (rq : Nat)
    (hdate : (parseDate date).isSome = true)
    (htime : parseHM time = some rq)
    (hwf : ∀ kv ∈ cal, kv.2.date = date →
      (parseHM kv.2.start_time).isSome = true ∧ (parseHM kv.2.end_time).isSome = true) :
    ∃ cs, check_availability cal date time dur = .ok cs ∧ cs.Sublist cal := by
  rcases hd : parseDate date with _ | dval
  · rw [hd] at hdate
    simp at hdate
  · obtain ⟨cs, hcs⟩ := collectConflicts_ok (rq : Int) ((rq : Int) + dur) date cal hwf
    refine ⟨cs, ?_, collectConflicts_sublist hcs⟩
    unfold check_availability
    rw [hd, htime]
    exact hcs

/-- Witness for the amended C9 on the two-event counterexample store. -/
theorem check_availability_conflicts_store_order_witness :
    ∃ cs, check_availability [("EVT001", cexLate), ("EVT002", cexEarly)]
        "2026-02-23" "10:00" 120 = .ok cs ∧
      cs.Sublist [("EVT001", cexLate), ("EVT002", cexEarly)] :=
  check_availability_conflicts_store_order
    [("EVT001", cexLate), ("EVT002", cexEarly)] "2026-02-23" "10:00" 120 600
    (by decide) (by decide) (by decide)

/-- **C10.**  `update_event` is not atomic: if the (upper-cased) id exists,
`new_date` is non-empty and `new_time` is non-empty but unparseable, the
operation reports an error — yet the store already holds the event with its
`date` changed to `new_date`, while `start_time` and `end_time` are
untouched. -/
theorem update_event_non_atomic
    (cal : EventStore) (event_id new_date new_time : String) (evt : Event)
    (os oe : Nat)
    (hget : dictGet? cal (strUpper event_id) = some evt)
    (hos : parseHM evt.start_time = some os)
    (hoe : parseHM evt.end_time = some oe)
    (hnd : new_date ≠ "")
    (hnt : new_time ≠ "")
    (hbad : parseHM new_time = none) :
    update_event cal event_id new_date new_time =
      (.error "Error updating event",
        dictSet cal (strUpper event_id) { evt with date := new_date }) ∧
    dictGet? (dictSet cal (strUpper event_id) { evt with date := new_date })
        (strUpper event_id) = some { evt with date := new_date } ∧
    Event.start_time { evt with date := new_date } = evt.start_time ∧
    Event.end_time { evt with date := new_date } = evt.end_time := by
  refine ⟨?_, dictGet?_set_self cal (strUpper event_id) _, rfl, rfl⟩
  simp only [update_event, hget, hos, hoe, hbad, ne_eq, hnd, hnt, not_false_eq_true,
    if_true]

/-- Witness for C10: updating `evt001` to date `2026-03-01` with the
malformed time `16h00` errors but leaves the date changed in the store. -/
theorem update_event_non_atomic_witness :
    update_event [("EVT001", wEvt)] "evt001" "2026-03-01" "16h00" =
      (.error "Error updating event",
        dictSet [("EVT001", wEvt)] (strUpper "evt001") { wEvt with date := "2026-03-01" }) ∧
    dictGet? (dictSet [("EVT001", wEvt)] (strUpper "evt001") { wEvt with date := "2026-03-01" })
        (strUpper "evt001") = some { wEvt with date := "2026-03-01" } ∧
    Event.start_time { wEvt with date := "2026-03-01" } = wEvt.start_time ∧
    Event.end_time { wEvt with date := "2026-03-01" } = wEvt.end_time :=
  update_event_non_atomic [("EVT001", wEvt)] "evt001" "2026-03-01" "16h00"
    wEvt 600 630 (by decide) (by decide) (by decide) (by decide) (by decide) (by decide)

/-- **C3.**  `update_event` preserves duration and applies date and time
independently, for every existing (upper-cased) id: with `new_time` empty the
stored times are untouched and the date is replaced only when `new_date` is
non-empty; with `new_date` empty and a parseable `new_time`, the date is
untouched, the new start is `new_time`, and the new end renders
`new_time + (old_end − old_start)` — the 14:00–15:00 event moved to 16:00
becomes exactly 16:00–17:00. -/
theorem update_event_spec
    (cal : EventStore) (event_id new_date new_time : String) (evt : Event)
    (os oe : Nat)
    (hget : dictGet? cal (strUpper event_id) = some evt)
    (hos : parseHM evt.start_time = some os)
    (hoe : parseHM evt.end_time = some oe)
    (hdur : os ≤ oe) :
    (update_event cal event_id new_date "" =
      (.ok ("Event '" ++ evt.title ++ "' (" ++ strUpper event_id ++ ") updated!"),
        if new_date ≠ "" then
          dictSet cal (strUpper event_id) { evt with date := new_date }
        else cal)) ∧
    (∀ ns : Nat, parseHM new_time = some ns → ns + (oe - os) < 1440 →
      ∃ evt', update_event cal event_id "" new_time =
        (.ok ("Event '" ++ evt.title ++ "' (" ++ strUpper event_id ++ ") updated!"),
          dictSet cal (strUpper event_id) evt') ∧
        evt'.date = evt.date ∧ evt'.title = evt.title ∧
        evt'.description = evt.description ∧
        timeVal? evt'.start_time = some ns ∧
        timeVal? evt'.end_time = some (ns + (oe - os))) := by
  constructor
  · simp only [update_event, hget, hos, hoe, ne_eq, not_true_eq_false, if_false,
      ite_not]
    by_cases hnd : new_date = ""
    · simp [hnd]
    · simp [hnd]
  · intro ns hns hday
    have hnt : new_time ≠ "" := by
      intro hnil
      rw [hnil] at hns
      exact Option.noConfusion ((show parseHM "" = none from rfl) ▸ hns)
    have hns1440 : ns < 1440 := parseHM_lt_1440 hns
    have hmod : (((ns : Int) + ((oe : Int) - (os : Int))) % 1440).toNat = ns + (oe - os) := by
      rw [Int.emod_eq_of_lt (by omega) (by omega)]
      omega
    refine ⟨Event.mk evt.title evt.date (fmtHM ns)
      (fmtHM (((ns : Int) + ((oe : Int) - (os : Int))) % 1440).toNat) evt.description,
      ?_, rfl, rfl, rfl, ?_, ?_⟩
    · simp only [update_event, hget, hos, hoe, hns, ne_eq, not_true_eq_false, if_false,
        hnt, not_false_eq_true, if_true]
    · exact timeVal?_fmtHM hns1440
    · rw [hmod]
      exact timeVal?_fmtHM (by omega)

/-- Witness for C3: `EVT002` at 14:00–15:00; a date-only update keeps the
times, and a time-only update to 16:00 yields 16:00–17:00. -/
theorem update_event_spec_witness :
    (update_event [("EVT002", Event.mk "Review" "2026-02-23" "14:00" "15:00" "")]
        "evt002" "2026-03-05" "" =
      (.ok ("Event '" ++ "Review" ++ "' (" ++ strUpper "evt002" ++ ") updated!"),
        if "2026-03-05" ≠ "" then
          dictSet [("EVT002", Event.mk "Review" "2026-02-23" "14:00" "15:00" "")]
            (strUpper "evt002")
            { Event.mk "Review" "2026-02-23" "14:00" "15:00" "" with date := "2026-03-05" }
        else [("EVT002", Event.mk "Review" "2026-02-23" "14:00" "15:00" "")])) ∧
    (∀ ns : Nat, parseHM "16:00" = some ns → ns + (900 - 840) < 1440 →
      ∃ evt', update_event [("EVT002", Event.mk "Review" "2026-02-23" "14:00" "15:00" "")]
          "evt002" "" "16:00" =
        (.ok ("Event '" ++ "Review" ++ "' (" ++ strUpper "evt002" ++ ") updated!"),
          dictSet [("EVT002", Event.mk "Review" "2026-02-23" "14:00" "15:00" "")]
            (strUpper "evt002") evt') ∧
        evt'.date = (Event.mk "Review" "2026-02-23" "14:00" "15:00" "").date ∧
        evt'.title = (Event.mk "Review" "2026-02-23" "14:00" "15:00" "").title ∧
        evt'.description = (Event.mk "Review" "2026-02-23" "14:00" "15:00" "").description ∧
        timeVal? evt'.start_time = some ns ∧
        timeVal? evt'.end_time = some (ns + (900 - 840))) :=
  update_event_spec [("EVT002", Event.mk "Review" "2026-02-23" "14:00" "15:00" "")]
    "evt002" "2026-03-05" "16:00" (Event.mk "Review" "2026-02-23" "14:00" "15:00" "")
    840 900 (by decide) (by decide) (by decide) (by decide)

/-- **C5.**  For a store whose records hold canonical `HH:MM` times,
`list_events date` succeeds and returns exactly the events of that date,
ordered by `start_time` ascending (as minutes), with ties kept in original
store order (any two same-date entries with equal `start_time` that appear
as a sublist of the store appear in that order in the output); a date with
no events yields a successful empty list. -/
theorem list_events_spec (cal : EventStore) (date : String)
    (hwf : ∀ kv ∈ cal, (timeVal? kv.2.start_time).isSome = true ∧
      (timeVal? kv.2.end_time).isSome = true) :
    ∃ l, list_events cal date = .ok l ∧
      l.Perm (cal.filter (fun kv => kv.2.date == date)) ∧
      (∀ x, x ∈ l ↔ (x ∈ cal ∧ x.2.date = date)) ∧
      ((∀ kv ∈ cal, kv.2.date ≠ date) → l = []) ∧
      l.Pairwise (fun a b => ∀ ma mb : Nat, timeVal? a.2.start_time = some ma →
        timeVal? b.2.start_time = some mb → ma ≤ mb) ∧
      (∀ a b, List.Sublist [a, b] cal → a.2.date = date → b.2.date = date →
        a.2.start_time = b.2.start_time → List.Sublist [a, b] l) := by
  have hwfp : ∀ kv ∈ cal, kv.2.date = date →
      (parseHM kv.2.start_time).isSome = true ∧ (parseHM kv.2.end_time).isSome = true := by
    intro kv hkv _
    obtain ⟨h1, h2⟩ := hwf kv hkv
    rcases ht1 : timeVal? kv.2.start_time with _ | m1
    · rw [ht1] at h1
      simp at h1
    rcases ht2 : timeVal? kv.2.end_time with _ | m2
    · rw [ht2] at h2
      simp at h2
    obtain ⟨hb1, hs1⟩ := timeVal?_eq_some ht1
    obtain ⟨hb2, hs2⟩ := timeVal?_eq_some ht2
    rw [hs1, hs2, parseHM_fmtHM hb1, parseHM_fmtHM hb2]
    exact ⟨rfl, rfl⟩
  have hmem : ∀ x, x ∈ (cal.filter (fun kv => kv.2.date == date)).insertionSort startLE ↔
      (x ∈ cal ∧ x.2.date = date) := by
    intro x
    rw [List.mem_insertionSort startLE, List.mem_filter]
    simp
  refine ⟨(cal.filter (fun kv => kv.2.date == date)).insertionSort startLE,
    list_events_ok cal date hwfp, List.perm_insertionSort startLE _, hmem, ?_, ?_, ?_⟩
  · intro hnone
    rw [List.eq_nil_iff_forall_not_mem]
    intro x hx
    obtain ⟨hxc, hxd⟩ := (hmem x).mp hx
    exact hnone x hxc hxd
  · have hs := List.sorted_insertionSort startLE (cal.filter (fun kv => kv.2.date == date))
    refine List.Pairwise.imp_of_mem ?_ hs
    intro a b _ _ hab ma mb hma hmb
    obtain ⟨hma1440, hsa⟩ := timeVal?_eq_some hma
    obtain ⟨hmb1440, hsb⟩ := timeVal?_eq_some hmb
    rw [startLE_iff, hsa, hsb] at hab
    exact (fmtHM_le_iff hma1440 hmb1440).mp hab
  · intro a b hsub hda hdb heq
    have hpair : List.Pairwise startLE [a, b] := by
      rw [List.pairwise_pair, startLE_iff, heq]
    have hsubf := List.Sublist.filter (fun kv => kv.2.date == date) hsub
    rw [show List.filter (fun kv => kv.2.date == date) [a, b] = [a, b] from by
      simp [hda, hdb]] at hsubf
    exact List.sublist_insertionSort hpair hsubf

/-- Witness for C5 on a three-event store with one event on another date,
inserted out of time order with a start-time tie. -/
theorem list_events_spec_witness :
    ∃ l, list_events
        [("EVT001", Event.mk "A" "2026-02-23" "11:00" "11:30" ""),
         ("EVT002", Event.mk "B" "2026-02-24" "08:00" "08:30" ""),
         ("EVT003", Event.mk "C" "2026-02-23" "09:00" "09:45" ""),
         ("EVT004", Event.mk "D" "2026-02-23" "09:00" "10:00" "")] "2026-02-23" = .ok l ∧
      l.Perm (List.filter (fun kv => kv.2.date == "2026-02-23")
        [("EVT001", Event.mk "A" "2026-02-23" "11:00" "11:30" ""),
         ("EVT002", Event.mk "B" "2026-02-24" "08:00" "08:30" ""),
         ("EVT003", Event.mk "C" "2026-02-23" "09:00" "09:45" ""),
         ("EVT004", Event.mk "D" "2026-02-23" "09:00" "10:00" "")]) ∧
      (∀ x, x ∈ l ↔ (x ∈
        [("EVT001", Event.mk "A" "2026-02-23" "11:00" "11:30" ""),
         ("EVT002", Event.mk "B" "2026-02-24" "08:00" "08:30" ""),
         ("EVT003", Event.mk "C" "2026-02-23" "09:00" "09:45" ""),
         ("EVT004", Event.mk "D" "2026-02-23" "09:00" "10:00" "")] ∧ x.2.date = "2026-02-23")) ∧
      ((∀ kv ∈ [("EVT001", Event.mk "A" "2026-02-23" "11:00" "11:30" ""),
         ("EVT002", Event.mk "B" "2026-02-24" "08:00" "08:30" ""),
         ("EVT003", Event.mk "C" "2026-02-23" "09:00" "09:45" ""),
         ("EVT004", Event.mk "D" "2026-02-23" "09:00" "10:00" "")],
          kv.2.date ≠ "2026-02-23") → l = []) ∧
      l.Pairwise (fun a b => ∀ ma mb : Nat, timeVal? a.2.start_time = some ma →
        timeVal? b.2.start_time = some mb → ma ≤ mb) ∧
      (∀ a b, List.Sublist [a, b]
          [("EVT001", Event.mk "A" "2026-02-23" "11:00" "11:30" ""),
           ("EVT002", Event.mk "B" "2026-02-24" "08:00" "08:30" ""),
           ("EVT003", Event.mk "C" "2026-02-23" "09:00" "09:45" ""),
           ("EVT004", Event.mk "D" "2026-02-23" "09:00" "10:00" "")] →
          a.2.date = "2026-02-23" → b.2.date = "2026-02-23" →
          a.2.start_time = b.2.start_time → List.Sublist [a, b] l) :=
  list_events_spec
    [("EVT001", Event.mk "A" "2026-02-23" "11:00" "11:30" ""),
     ("EVT002", Event.mk "B" "2026-02-24" "08:00" "08:30" ""),
     ("EVT003", Event.mk "C" "2026-02-23" "09:00" "09:45" ""),
     ("EVT004", Event.mk "D" "2026-02-23" "09:00" "10:00" "")] "2026-02-23" (by decide)

/-- **C6.**  `delete_event` upper-cases the id before lookup.  For an
existing id (with parseable stored times) it removes the record and returns
it: the id no longer resolves in the store and no longer appears in any
successful `list_events`; every other key is untouched.  For a missing id it
returns the failure payload naming the (upper-cased) id and leaves the store
exactly unchanged, so repeating the delete is the same no-op. -/
theorem delete_event_spec (cal : EventStore) (event_id : String)
    (hnd : (cal.map Prod.fst).Nodup) :
    (∀ evt, dictGet? cal (strUpper event_id) = some evt →
      ∀ os oe : Nat, parseHM evt.start_time = some os → parseHM evt.end_time = some oe →
      delete_event cal event_id = (.ok evt, dictPop cal (strUpper event_id)) ∧
      dictGet? (dictPop cal (strUpper event_id)) (strUpper event_id) = none ∧
      (∀ k, k ≠ strUpper event_id →
        dictGet? (dictPop cal (strUpper event_id)) k = dictGet? cal k) ∧
      (∀ d l, list_events (dictPop cal (strUpper event_id)) d = .ok l →
        ∀ e : Event, (strUpper event_id, e) ∉ l)) ∧
    (dictGet? cal (strUpper event_id) = none →
      delete_event cal event_id =
        (.error ("Event ID '" ++ strUpper event_id ++ "' not found. " ++
          "Please list your events first to find the correct ID."), cal)) := by
  constructor
  · intro evt hget os oe hos hoe
    refine ⟨?_, dictPop_get_none cal _ hnd,
      fun k hk => dictPop_get_ne cal _ k hk, ?_⟩
    · simp only [delete_event, hget, hos, hoe]
    · intro d l hle e hmem
      have hsub := (list_events_sub hle _ hmem).1
      have hnone := dictPop_get_none cal (strUpper event_id) hnd
      rw [dictGet?_eq_none_iff] at hnone
      exact hnone _ hsub rfl
  · intro hnone
    simp only [delete_event, hnone]

/-- Witness for C6: deleting `evt001` (case-insensitive) removes and returns
the record; deleting a missing `evt999` reports the failure and leaves the
store unchanged. -/
theorem delete_event_spec_witness :
    (delete_event [("EVT001", wEvt)] "evt001" =
      (.ok wEvt, dictPop [("EVT001", wEvt)] (strUpper "evt001"))) ∧
    (delete_event [("EVT001", wEvt)] "evt999" =
      (.error ("Event ID '" ++ strUpper "evt999" ++ "' not found. " ++
        "Please list your events first to find the correct ID."), [("EVT001", wEvt)])) := by
  constructor
  · exact ((delete_event_spec [("EVT001", wEvt)] "evt001" (by decide)).1 wEvt (by decide)
      600 630 (by decide) (by decide)).1
  · exact (delete_event_spec [("EVT001", wEvt)] "evt999" (by decide)).2 (by decide)

/-- If every model response carries at least one tool call, `chatLoop`
exhausts its fuel, returns the failure message, and makes exactly one model
call per unit of fuel. -/
theorem chatLoop_all_tools (model : List Msg → ModelResp)
    (h : ∀ msgs, (model msgs).toolCalls ≠ []) :
    ∀ (fuel : Nat) (hist : List Msg) (cal : EventStore) (calls : Nat),
      (chatLoop model fuel hist cal calls).1 = loopFailMsg ∧
      (chatLoop model fuel hist cal calls).2.2.2 = calls + fuel := by
  intro fuel
  induction fuel with
  | zero => exact fun hist cal calls => ⟨rfl, rfl⟩
  | succ fuel ih =>
    intro hist cal calls
    rcases htc : (model hist).toolCalls with _ | ⟨tc, rest⟩
    · exact absurd htc (h hist)
    · rcases hexec : execToolCalls cal
          (hist ++ [.assistant ((model hist).content.getD "") (tc :: rest)])
          (tc :: rest) with ⟨hist₂, cal₂⟩
      have hred : chatLoop model (fuel + 1) hist cal calls =
          chatLoop model fuel hist₂ cal₂ (calls + 1) := by
        simp only [chatLoop, htc, hexec]
      rw [hred]
      obtain ⟨h1, h2⟩ := ih hist₂ cal₂ (calls + 1)
      exact ⟨h1, by rw [h2]; omega⟩

/-- **C7.**  `process_chat` never exceeds the iteration cap of 10: against
any model that returns at least one tool invocation on every call, it
terminates with the user-visible failure message after exactly 10 model
round-trips (the instrumented call count of the run is 10). -/
theorem process_chat_cap (model : List Msg → ModelResp)
    (hist : List Msg) (user : String) (cal : EventStore)
    (h : ∀ msgs, (model msgs).toolCalls ≠ []) :
    (process_chat model hist user cal).1 = loopFailMsg ∧
    (process_chat model hist user cal).2.2.2 = 10 := by
  obtain ⟨h1, h2⟩ := chatLoop_all_tools model h 10 (hist ++ [.user user]) cal 0
  exact ⟨h1, h2⟩

/-- A scripted model stub that always asks for one more tool call. -/
def stubModel : List Msg → ModelResp :=
  fun _ => { content := none, toolCalls := [⟨"call_1", ToolReq.list "2026-02-23"⟩] }

/-- Witness for C7: the always-tool-calling stub makes the loop stop with
the failure message after exactly 10 round-trips. -/
theorem process_chat_cap_witness :
    (process_chat stubModel [] "What is on my calendar?" []).1 = loopFailMsg ∧
    (process_chat stubModel [] "What is on my calendar?" []).2.2.2 = 10 :=
  process_chat_cap stubModel [] "What is on my calendar?" []
    (fun _ => List.cons_ne_nil _ _)

end CalendarApp
